import Mathlib

/-!
Shallow embedding of `photo_processing.py` (CHILLAX photo analysis).

Images are modelled as total functions `ℤ → ℤ → ℚ` (pixel brightness at a
row/column coordinate), 1-D profiles/waveforms as `List ℚ`, and 2-D batches
of profiles as `List (List ℚ)`.  Standard deviations, which involve a square
root, live in `ℝ`; all other arithmetic stays in `ℚ` so that it evaluates.
Python slicing `l[a:b]` (with `0 ≤ a ≤ b`) is `(l.take b).drop a`;
`np.argmax` on a boolean mask is `npArgmax`; a call that raises at runtime
(`np.argmax` or builtin `max` applied to an empty array) is `none`.
The Python default arguments (`num_slices=200`, `frame=5`, ...) are plain
parameters here; call sites supply them explicitly.
-/

namespace PhotoProcessing

/-- Embedding of `slice_photo` (photo_processing.py, lines 10-29).  The nested
loops accumulate, for each sample position `j`, the value
`A[slice_start_x+j-int((i+1)/2), slice_start_y+int(i/2)+j] / 200` over all
slice indices `i < num_slices`.  Note the literal divisor `200` from line 28
of the source, independent of `num_slices`. -/
def slice_photo (A : ℤ → ℤ → ℚ) (num_slices slice_length : ℕ)
    (slice_start_x slice_start_y : ℤ) : List ℚ :=
  (List.range slice_length).map (fun j =>
    ∑ i ∈ Finset.range num_slices,
      A (slice_start_x + (j : ℤ) - (((i + 1) / 2 : ℕ) : ℤ))
        (slice_start_y + ((i / 2 : ℕ) : ℤ) + (j : ℤ)) / 200)

/-- One row of `rolling_average` (photo_processing.py, lines 31-48).  All the
numpy operations there (`cumsum`, slicing, broadcasting, `append`, each with
`axis=1`) act row-independently, so the 2-D function is the per-row map of
this definition.  `cumsum` models `np.cumsum(np.insert(row,0,0))`, i.e. the
prefix sums `[0, x₀, x₀+x₁, ...]` of length `N+1`. -/
def rollRow (row : List ℚ) (half_window : ℕ) : List ℚ :=
  let cumsum := row.scanl (fun a b => a + b) 0
  let w := 2 * half_window + 1
  let averaged := (List.range (cumsum.length - w)).map
      (fun m => (cumsum.getD (m + w) 0 - cumsum.getD m 0) / (w : ℚ))
  let averaged_left := List.replicate half_window (averaged.getD 0 0)
  let averaged_right := List.replicate half_window (averaged.getD (averaged.length - 1) 0)
  averaged_left ++ averaged ++ averaged_right

/-- Embedding of `rolling_average` (photo_processing.py, lines 31-48) on a
2-D batch of waveforms. -/
def rolling_average (x : List (List ℚ)) (half_window : ℕ) : List (List ℚ) :=
  x.map (fun row => rollRow row half_window)

/-- `np.mean` of a 1-D array (sum divided by length; `0/0 = 0` stands in for
the NaN that numpy produces on an empty array). -/
def npMean (l : List ℚ) : ℚ := l.sum / l.length

/-- `np.std` of a 1-D array: the population standard deviation
`sqrt(mean((x - mean x)^2))` (numpy default `ddof=0`). -/
noncomputable def npStd (l : List ℚ) : ℝ :=
  Real.sqrt (((l.map (fun v => (v - npMean l) ^ 2)).sum / (l.length : ℚ) : ℚ))

/-- Python slice `row[s:e]` for non-negative bounds (clamped at the length,
empty when `e ≤ s`), as used by `leading_baseline`. -/
def baseline_slice (row : List ℚ) (s e : ℕ) : List ℚ := (row.take e).drop s

/-- Embedding of `leading_baseline` with `linear=False`
(photo_processing.py, lines 50-81, `else` branch): the per-row `np.mean` and
`np.std` (`axis=1`) of `waveform[:, start_sample : trigger_sample - pretr_excl_sampl]`.
No validation of the window is performed by the source. -/
noncomputable def leading_baseline (waveform : List (List ℚ))
    (trigger_sample start_sample pretr_excl_sampl : ℕ) : List ℚ × List ℝ :=
  (waveform.map (fun row =>
      npMean (baseline_slice row start_sample (trigger_sample - pretr_excl_sampl))),
   waveform.map (fun row =>
      npStd (baseline_slice row start_sample (trigger_sample - pretr_excl_sampl))))

/-- Modelled from the spec: `lin_fit`, referenced by `leading_baseline`
(photo_processing.py, lines 73-74) but defined nowhere under `src/`; per the
spec's linear mode it is a straight line with slope and intercept
parameters. -/
def lin_fit (x slope intercept : ℚ) : ℚ := slope * x + intercept

/-- Modelled from the spec: `scipy.optimize.curve_fit(lin_fit, xs, ys)` is an
external least-squares solver (scipy is not part of `src/`); it is modelled by
the closed-form least-squares solution for a straight line, returning
`(slope, intercept)`. -/
def curve_fit_lin (xs ys : List ℚ) : ℚ × ℚ :=
  let n : ℚ := xs.length
  let sx := xs.sum
  let sy := ys.sum
  let sxx := (xs.map (fun v => v ^ 2)).sum
  let sxy := (List.zipWith (fun a b => a * b) xs ys).sum
  let slope := (n * sxy - sx * sy) / (n * sxx - sx ^ 2)
  (slope, (sy - slope * sx) / n)

/-- `np.arange a b` as a list of rationals. -/
def np_arange (a b : ℕ) : List ℚ := (List.range (b - a)).map (fun k => ((a + k : ℕ) : ℚ))

/-- Embedding of `leading_baseline` with `linear=True`
(photo_processing.py, lines 69-76): per row, fit `lin_fit` to
`samples = np.arange(start_sample, trigger_sample - pretr_excl_sampl)` versus
the window of the row, evaluate the fitted line on `np.arange(len(row))`, and
take `np.std` of (window of the row minus window of the fitted line). -/
noncomputable def leading_baseline_linear (waveform : List (List ℚ))
    (trigger_sample start_sample pretr_excl_sampl : ℕ) : List (List ℚ) × List ℝ :=
  (waveform.map (fun row =>
      let fp := curve_fit_lin (np_arange start_sample (trigger_sample - pretr_excl_sampl))
        (baseline_slice row start_sample (trigger_sample - pretr_excl_sampl))
      (List.range row.length).map (fun x : ℕ => lin_fit (x : ℚ) fp.1 fp.2)),
   waveform.map (fun row =>
      let fp := curve_fit_lin (np_arange start_sample (trigger_sample - pretr_excl_sampl))
        (baseline_slice row start_sample (trigger_sample - pretr_excl_sampl))
      let bl := (List.range row.length).map (fun x : ℕ => lin_fit (x : ℚ) fp.1 fp.2)
      npStd (List.zipWith (fun a b => a - b)
        (baseline_slice row start_sample (trigger_sample - pretr_excl_sampl))
        (baseline_slice bl start_sample (trigger_sample - pretr_excl_sampl)))))

/-- `np.argmax` of a boolean mask: the index of the first `true`, and `0`
when the mask is all-`false` (the maximum `false` is then first attained at
index 0).  The empty-array case (where numpy raises) is handled at call
sites. -/
def npArgmax (l : List Bool) : ℕ :=
  if l.contains true then l.findIdx (fun b => b) else 0

/-- Embedding of `std_dev_pulsefinding` (photo_processing.py, lines 83-117).
`frame` is accepted and never used, exactly as in the source.  `none` models
the `ValueError` numpy raises when `np.argmax` (line 110 or 113) or the
builtin `max` (line 114) hits an empty array; otherwise the returned pair is
`(pulse_start, pulse_end)` from line 117. -/
def std_dev_pulsefinding (waveform : List ℚ) (std_dev : ℚ)
    (trigger_sample search_window frame : ℕ)
    (rising_thresh falling_thresh : ℚ) : Option (ℕ × ℕ) :=
  let window_start := trigger_sample - search_window
  let window_end := trigger_sample + search_window
  let pulse_window := (waveform.take window_end).drop window_start
  if pulse_window.isEmpty then none
  else
    let pulse_start :=
      npArgmax (pulse_window.map (fun v => decide (rising_thresh * std_dev < v))) + window_start
    let tail_after_start := waveform.drop (pulse_start + 1)
    if tail_after_start.isEmpty then none
    else
      let below := tail_after_start.map (fun v => decide (v < falling_thresh * std_dev))
      let pulse_end :=
        if below.contains true then npArgmax below + pulse_start + 1
        else waveform.length - 1
      some (pulse_start, pulse_end)

/-! ### Generic list lemmas used throughout -/

theorem list_sum_getD (l : List ℚ) :
    l.sum = ∑ i ∈ Finset.range l.length, l.getD i 0 := by
  induction l with
  | nil => simp
  | cons x xs ih =>
      rw [List.sum_cons, ih, List.length_cons, Finset.sum_range_succ']
      simp
      ring

theorem sum_map_range (f : ℕ → ℚ) (n : ℕ) :
    ((List.range n).map f).sum = ∑ k ∈ Finset.range n, f k := by
  induction n with
  | zero => simp
  | succ m ih => rw [List.range_succ, Finset.sum_range_succ, ← ih]; simp

theorem getD_map_range (f : ℕ → ℚ) (n j : ℕ) (h : j < n) :
    ((List.range n).map f).getD j 0 = f j := by
  rw [List.getD_eq_getElem _ _ (by simpa using h), List.getElem_map, List.getElem_range]

theorem zipWith_map_same (f : ℚ → ℚ → ℚ) (g h : ℕ → ℚ) (l : List ℕ) :
    List.zipWith f (l.map g) (l.map h) = l.map (fun x => f (g x) (h x)) := by
  induction l with
  | nil => rfl
  | cons x xs ih => simp [ih]

theorem baseline_slice_eq_map (row : List ℚ) (s e : ℕ) (h : e ≤ row.length) :
    baseline_slice row s e = (List.range (e - s)).map (fun i => row.getD (s + i) 0) := by
  apply List.ext_getElem
  · simp [baseline_slice]
    omega
  · intro n h1 h2
    have hn : s + n < row.length := by
      simp [baseline_slice] at h1
      omega
    simp only [baseline_slice]
    rw [List.getElem_drop, List.getElem_take, List.getElem_map,
      List.getElem_range, List.getD_eq_getElem _ _ hn]

theorem scanl_add_getD (l : List ℚ) (a : ℚ) (m : ℕ) (h : m ≤ l.length) :
    (l.scanl (fun x y => x + y) a).getD m 0 = a + ∑ i ∈ Finset.range m, l.getD i 0 := by
  induction l generalizing a m with
  | nil =>
      simp only [List.length_nil, Nat.le_zero] at h
      subst h
      simp [List.scanl]
  | cons x xs ih =>
      rcases m with _ | m
      · simp [List.scanl]
      · rw [List.scanl_cons]
        have hm : m ≤ xs.length := by simpa using h
        have : ([a] ++ List.scanl (fun x y => x + y) (a + x) xs).getD (m + 1) 0 =
            (List.scanl (fun x y => x + y) (a + x) xs).getD m 0 := by
          simp
        rw [this, ih (a + x) m hm, Finset.sum_range_succ']
        simp [add_assoc, add_comm, add_left_comm]

theorem findIdx_map_id (l : List ℚ) (p : ℚ → Bool) :
    (l.map p).findIdx (fun b => b) = l.findIdx p := by
  induction l with
  | nil => rfl
  | cons x xs ih =>
      simp only [List.map_cons, List.findIdx_cons]
      cases p x <;> simp [ih]

theorem contains_map_true (l : List ℚ) (p : ℚ → Bool) :
    (l.map p).contains true = l.any p := by
  induction l with
  | nil => rfl
  | cons x xs ih => cases h : p x <;> simp_all [List.contains_cons]

theorem npArgmax_map (l : List ℚ) (p : ℚ → Bool) :
    npArgmax (l.map p) = if l.any p then l.findIdx p else 0 := by
  rw [npArgmax, contains_map_true, findIdx_map_id]

theorem window_length (wf : List ℚ) (ws we : ℕ) :
    ((wf.take we).drop ws).length = min we wf.length - ws := by
  simp

theorem window_getD (wf : List ℚ) (ws we i : ℕ)
    (h : i < ((wf.take we).drop ws).length) :
    ((wf.take we).drop ws).getD i 0 = wf.getD (ws + i) 0 := by
  have h2 : i < (wf.take we).length - ws := by simpa using h
  have h3 : ws + i < wf.length := by
    simp at h2
    omega
  rw [List.getD_eq_getElem _ _ h, List.getElem_drop, List.getElem_take,
    List.getD_eq_getElem _ _ h3]

theorem drop_getD (wf : List ℚ) (k i : ℕ) (h : i < (wf.drop k).length) :
    (wf.drop k).getD i 0 = wf.getD (k + i) 0 := by
  have h3 : k + i < wf.length := by
    simp at h
    omega
  rw [List.getD_eq_getElem _ _ h, List.getElem_drop, List.getD_eq_getElem _ _ h3]

/-- If `i0` is the first index in the search window whose value strictly
exceeds `rising_thresh * std_dev`, then the `np.argmax` of the boolean mask
over the window, shifted back by the window start, is exactly `i0`. -/
theorem pulse_start_of_first_cross (wf : List ℚ) (std_dev : ℚ)
    (trigger_sample search_window : ℕ) (rising_thresh : ℚ) (i0 : ℕ)
    (hlo : trigger_sample - search_window ≤ i0)
    (hhi : i0 < min (trigger_sample + search_window) wf.length)
    (hcross : rising_thresh * std_dev < wf.getD i0 0)
    (hmin : ∀ k, trigger_sample - search_window ≤ k → k < i0 →
      ¬ rising_thresh * std_dev < wf.getD k 0) :
    npArgmax (((wf.take (trigger_sample + search_window)).drop
          (trigger_sample - search_window)).map
        (fun v => decide (rising_thresh * std_dev < v))) +
      (trigger_sample - search_window) = i0 := by
  set ws := trigger_sample - search_window with hws
  set we := trigger_sample + search_window with hwe
  set W := (wf.take we).drop ws with hW
  have hlen : W.length = min we wf.length - ws := window_length wf ws we
  have hiW : i0 - ws < W.length := by omega
  have hgd : W.getD (i0 - ws) 0 = wf.getD i0 0 := by
    rw [window_getD wf ws we _ hiW]
    congr 1
    omega
  have hany : W.any (fun v => decide (rising_thresh * std_dev < v)) = true := by
    rw [List.any_eq_true]
    refine ⟨W.get ⟨i0 - ws, hiW⟩, List.get_mem _ _ hiW, ?_⟩
    rw [decide_eq_true_iff]
    have : W.get ⟨i0 - ws, hiW⟩ = W.getD (i0 - ws) 0 := by
      rw [List.getD_eq_getElem _ _ hiW]
      rfl
    rw [this, hgd]
    exact hcross
  rw [npArgmax_map, if_pos hany]
  have hfi : W.findIdx (fun v => decide (rising_thresh * std_dev < v)) = i0 - ws := by
    rw [List.findIdx_eq hiW]
    constructor
    · have : W[i0 - ws] = W.getD (i0 - ws) 0 := by rw [List.getD_eq_getElem _ _ hiW]
      rw [this, hgd, decide_eq_true_iff]
      exact hcross
    · intro j hj
      have hjW : j < W.length := by omega
      have : W[j] = W.getD j 0 := by rw [List.getD_eq_getElem _ _ hjW]
      rw [this, window_getD wf ws we _ hjW, decide_eq_false_iff_not]
      exact hmin (ws + j) (Nat.le_add_right _ _) (by omega)
  rw [hfi]
  omega


theorem findIdx_getD_eq_true (l : List ℚ) (p : ℚ → Bool)
    (h : l.findIdx p < l.length) : p (l.getD (l.findIdx p) 0) = true := by
  rw [List.getD_eq_getElem _ _ h]
  exact List.findIdx_getElem

theorem findIdx_getD_eq_false (l : List ℚ) (p : ℚ → Bool) (i : ℕ)
    (hi : i < l.length) (h : i < l.findIdx p) : p (l.getD i 0) = false := by
  rw [List.getD_eq_getElem _ _ hi]
  exact List.not_of_lt_findIdx h

theorem getD_mem (l : List ℚ) (i : ℕ) (h : i < l.length) : l.getD i 0 ∈ l := by
  rw [List.getD_eq_getElem _ _ h]
  exact List.getElem_mem h


/-- Inversion for `std_dev_pulsefinding`: whenever it returns a pair, the
end-search slice was nonempty (`st + 1 < len`), and the end index is either
the first index after `st` strictly below `falling_thresh * std_dev`, or the
sentinel `len - 1` when no such index exists. -/
theorem pulsefinding_some_inv (wf : List ℚ) (std_dev : ℚ)
    (trigger_sample search_window frame : ℕ) (rising_thresh falling_thresh : ℚ)
    (st en : ℕ)
    (hres : std_dev_pulsefinding wf std_dev trigger_sample search_window frame
      rising_thresh falling_thresh = some (st, en)) :
    st + 1 < wf.length ∧
    ((en < wf.length ∧ st < en ∧ wf.getD en 0 < falling_thresh * std_dev ∧
        ∀ k, st < k → k < en → ¬ wf.getD k 0 < falling_thresh * std_dev) ∨
     (en = wf.length - 1 ∧
        ∀ k, st < k → k < wf.length → ¬ wf.getD k 0 < falling_thresh * std_dev)) := by
  simp only [std_dev_pulsefinding] at hres
  split at hres
  · exact absurd hres (by simp)
  · split at hres
    · exact absurd hres (by simp)
    · rename_i hW hT
      rw [Option.some.injEq, Prod.mk.injEq] at hres
      obtain ⟨hst, hen⟩ := hres
      rw [hst] at hen hT
      have hTne : wf.drop (st + 1) ≠ [] := by
        intro hnil
        exact hT (by simp [hnil])
      have hTlen : st + 1 < wf.length := by
        rcases Nat.lt_or_ge (st + 1) wf.length with h | h
        · exact h
        · exact absurd (List.drop_eq_nil_of_le h) hTne
      refine ⟨hTlen, ?_⟩
      have hdlen : (wf.drop (st + 1)).length = wf.length - (st + 1) := by
        simp [List.length_drop]
      by_cases hc : ((wf.drop (st + 1)).map
          (fun v => decide (v < falling_thresh * std_dev))).contains true = true
      · rw [if_pos hc] at hen
        have hany : (wf.drop (st + 1)).any
            (fun v => decide (v < falling_thresh * std_dev)) = true := by
          rw [← contains_map_true]
          exact hc
        rw [npArgmax_map, if_pos hany] at hen
        have hJlen : (wf.drop (st + 1)).findIdx
            (fun v => decide (v < falling_thresh * std_dev)) < (wf.drop (st + 1)).length := by
          rw [List.findIdx_lt_length]
          exact List.any_eq_true.mp hany
        left
        have henval : wf.getD en 0 < falling_thresh * std_dev := by
          have h2 : decide ((wf.drop (st + 1)).getD ((wf.drop (st + 1)).findIdx
              (fun v => decide (v < falling_thresh * std_dev))) 0 <
                falling_thresh * std_dev) = true :=
            findIdx_getD_eq_true _ _ hJlen
          rw [drop_getD wf (st + 1) _ hJlen] at h2
          have h3 : st + 1 + (wf.drop (st + 1)).findIdx
              (fun v => decide (v < falling_thresh * std_dev)) = en := by omega
          rw [h3] at h2
          exact of_decide_eq_true h2
        refine ⟨by omega, by omega, henval, ?_⟩
        intro k hk1 hk2
        have hjk : k - (st + 1) < (wf.drop (st + 1)).findIdx
            (fun v => decide (v < falling_thresh * std_dev)) := by omega
        have hjk2 : k - (st + 1) < (wf.drop (st + 1)).length := by omega
        have h4 : decide ((wf.drop (st + 1)).getD (k - (st + 1)) 0 <
            falling_thresh * std_dev) = false :=
          findIdx_getD_eq_false _ _ _ hjk2 hjk
        rw [drop_getD wf (st + 1) _ hjk2] at h4
        have h6 : st + 1 + (k - (st + 1)) = k := by omega
        rw [h6] at h4
        exact of_decide_eq_false h4
      · rw [if_neg hc] at hen
        right
        refine ⟨hen.symm, ?_⟩
        have hcf : ((wf.drop (st + 1)).map
            (fun v => decide (v < falling_thresh * std_dev))).contains true = false := by
          simp only [Bool.not_eq_true] at hc
          exact hc
        have hanyf : (wf.drop (st + 1)).any
            (fun v => decide (v < falling_thresh * std_dev)) = false := by
          rw [← contains_map_true]
          exact hcf
        intro k hk1 hk2
        have hjk2 : k - (st + 1) < (wf.drop (st + 1)).length := by omega
        have hmem := getD_mem _ _ hjk2
        have h4 := List.any_eq_false.mp hanyf _ hmem
        rw [drop_getD wf (st + 1) _ hjk2] at h4
        have h6 : st + 1 + (k - (st + 1)) = k := by omega
        rw [h6] at h4
        simpa using h4

/-! ### Claim theorems -/

/-- C1 (code_bug evaluation): on an all-zero profile no value exceeds
`rising_thresh * std_dev` anywhere in the search window, yet
`std_dev_pulsefinding` does not report a no-pulse-found condition — it
silently returns the first window index `trigger_sample - search_window = 2`
(relative index 0) as the pulse start, the exact false positive the claim
rules out. -/
theorem C1_no_pulse_silently_returns_window_start :
    std_dev_pulsefinding (List.replicate 10 0) 1 5 3 5 5 3 = some (2, 3) := by
  norm_num [std_dev_pulsefinding, npArgmax, List.replicate, List.findIdx, List.findIdx.go]

/-- C2 (code_bug evaluation): `slice_photo` divides by the literal constant
`200` from line 28 of the source, not by the configured `num_slices`.  With
`num_slices = 2` on the constant-1 image the single profile entry is
`2/200 = 1/100`, whereas the arithmetic mean over the slices claimed by the
spec would be `1`. -/
theorem C2_slice_photo_divides_by_literal_200 :
    slice_photo (fun _ _ => 1) 2 1 0 0 = [1 / 100] ∧ ((1 : ℚ) / 100) ≠ 1 := by
  constructor
  · norm_num [slice_photo, Finset.sum_range_succ, List.range_succ]
  · norm_num

/-- C9 (counterexample): in the degenerate no-signal case (all-zero profile,
nothing exceeds the rising threshold in the window) `std_dev_pulsefinding`
does not report a distinct condition — it returns an ordinary pair, whose
start is the window start `trigger_sample - search_window = 1`. -/
theorem C9_no_signal_still_returns_a_pair :
    std_dev_pulsefinding (List.replicate 6 0) 1 3 2 5 5 3 = some (1, 2) := by
  norm_num [std_dev_pulsefinding, npArgmax, List.replicate, List.findIdx, List.findIdx.go]

/-- C10: the accepted `frame` parameter of `std_dev_pulsefinding` is never
used, so any two values of it yield identical results on all inputs. -/
theorem C10_frame_parameter_has_no_effect
    (waveform : List ℚ) (std_dev : ℚ) (trigger_sample search_window f1 f2 : ℕ)
    (rising_thresh falling_thresh : ℚ) :
    std_dev_pulsefinding waveform std_dev trigger_sample search_window f1
        rising_thresh falling_thresh =
      std_dev_pulsefinding waveform std_dev trigger_sample search_window f2
        rising_thresh falling_thresh := rfl


/-- C3 (counterexample to the claim as stated): on the profile
`[0,0,0,0,10]` with `trigger_sample = 4`, `search_window = 1`, the window is
indices 3..4 and the value 10 at absolute index 4 strictly exceeds
`rising_thresh * std_dev = 5`, yet `std_dev_pulsefinding` does not return
index 4 (or any pair): the crossing index is the last profile index, so the
end-search slice `waveform[5:]` is empty and `np.argmax` on line 113 of the
source raises, modelled as `none`. -/
theorem C3_counterexample :
    (5:ℚ) * 1 < [(0:ℚ),0,0,0,10].getD 4 0 ∧
    (4:ℕ) - 1 ≤ 4 ∧ 4 < min (4 + 1) [(0:ℚ),0,0,0,10].length ∧
    std_dev_pulsefinding [0,0,0,0,10] 1 4 1 5 5 3 = none := by
  refine ⟨by norm_num [List.getD], by norm_num, by norm_num, ?_⟩
  norm_num [std_dev_pulsefinding, npArgmax, List.findIdx, List.findIdx.go]

/-- C3 (amended): whenever some value in the window
`profile[trigger_sample - search_window : trigger_sample + search_window]`
strictly exceeds `rising_thresh * std_dev`, and the smallest absolute index
`i0` doing so is not the last index of the profile (on the last index the
end-search slice `profile[i0+1:]` is empty and the source raises),
`std_dev_pulsefinding` returns `i0` — the window-start offset plus the first
relative crossing — as the start index. -/
theorem C3_start_index_is_first_window_cross
    (wf : List ℚ) (std_dev : ℚ) (trigger_sample search_window frame : ℕ)
    (rising_thresh falling_thresh : ℚ) (i0 : ℕ)
    (hsw : search_window ≤ trigger_sample)
    (hlo : trigger_sample - search_window ≤ i0)
    (hhi : i0 < min (trigger_sample + search_window) wf.length)
    (hcross : rising_thresh * std_dev < wf.getD i0 0)
    (hmin : ∀ k, trigger_sample - search_window ≤ k → k < i0 →
      ¬ rising_thresh * std_dev < wf.getD k 0)
    (hnotlast : i0 + 1 < wf.length) :
    ∃ pulse_end, std_dev_pulsefinding wf std_dev trigger_sample search_window frame
      rising_thresh falling_thresh = some (i0, pulse_end) := by
  have hstart := pulse_start_of_first_cross wf std_dev trigger_sample search_window
    rising_thresh i0 hlo hhi hcross hmin
  simp only [std_dev_pulsefinding]
  have hWlen : 0 < ((wf.take (trigger_sample + search_window)).drop
      (trigger_sample - search_window)).length := by
    rw [window_length]
    omega
  rw [if_neg (by simp [List.isEmpty_iff, ← List.length_eq_zero]; omega)]
  rw [hstart]
  rw [if_neg (by simp [List.isEmpty_iff, ← List.length_eq_zero]; omega)]
  exact ⟨_, rfl⟩

/-- Witness for C3 on the concrete profile `[0,0,10,0]` with
`trigger_sample = 2`, `search_window = 1`: the window is indices 1..2, the
first (and only) crossing of `5 * 1` is at absolute index 2, and the
detector indeed starts the pulse there. -/
theorem C3_witness :
    1 ≤ 2 ∧ (2:ℕ) - 1 ≤ 2 ∧ 2 < min (2 + 1) ([(0:ℚ),0,10,0].length) ∧
    (5:ℚ) * 1 < [(0:ℚ),0,10,0].getD 2 0 ∧
    (∀ k, (2:ℕ) - 1 ≤ k → k < 2 → ¬ (5:ℚ) * 1 < [(0:ℚ),0,10,0].getD k 0) ∧
    2 + 1 < [(0:ℚ),0,10,0].length ∧
    ∃ pulse_end, std_dev_pulsefinding [0,0,10,0] 1 2 1 5 5 3 = some (2, pulse_end) := by
  refine ⟨by norm_num, by norm_num, by norm_num, by norm_num [List.getD], ?_, by norm_num, ?_⟩
  · intro k h1 h2
    have hk : k = 1 := by omega
    subst hk
    norm_num [List.getD]
  · exact C3_start_index_is_first_window_cross [0,0,10,0] 1 2 1 5 5 3 2
      (by norm_num) (by norm_num) (by norm_num) (by norm_num [List.getD])
      (by intro k h1 h2; have hk : k = 1 := (by omega); subst hk; norm_num [List.getD])
      (by norm_num)

/-- C4: given a returned pair `(st, en)`, the end index `en` is the first
index strictly after `st` — searched from `st + 1` to the end of the full
profile, not limited to the search window — whose value is strictly below
`falling_thresh * std_dev`; and when no such index exists before the profile
ends, `en` is the last valid index `len - 1`, returned as a valid sentinel
rather than an error. -/
theorem C4_end_index_first_below_or_sentinel
    (wf : List ℚ) (std_dev : ℚ) (trigger_sample search_window frame : ℕ)
    (rising_thresh falling_thresh : ℚ) (st en : ℕ)
    (hsw : search_window ≤ trigger_sample)
    (hres : std_dev_pulsefinding wf std_dev trigger_sample search_window frame
      rising_thresh falling_thresh = some (st, en)) :
    (en < wf.length ∧ st < en ∧ wf.getD en 0 < falling_thresh * std_dev ∧
      ∀ k, st < k → k < en → ¬ wf.getD k 0 < falling_thresh * std_dev) ∨
    (en = wf.length - 1 ∧
      ∀ k, st < k → k < wf.length → ¬ wf.getD k 0 < falling_thresh * std_dev) :=
  (pulsefinding_some_inv wf std_dev trigger_sample search_window frame
    rising_thresh falling_thresh st en hres).2

/-- Witness for C4 on the concrete profile `[0,10,0,0]`: the pulse starts at
index 1 and the first index after it whose value is strictly below `3 * 1`
is index 2, which is what the detector returns as the end. -/
theorem C4_witness :
    1 ≤ 1 ∧ std_dev_pulsefinding [0,10,0,0] 1 1 1 5 5 3 = some (1, 2) ∧
    ((2 < [(0:ℚ),10,0,0].length ∧ 1 < 2 ∧ [(0:ℚ),10,0,0].getD 2 0 < 3 * 1 ∧
        ∀ k, 1 < k → k < 2 → ¬ [(0:ℚ),10,0,0].getD k 0 < 3 * 1) ∨
      (2 = [(0:ℚ),10,0,0].length - 1 ∧
        ∀ k, 1 < k → k < [(0:ℚ),10,0,0].length → ¬ [(0:ℚ),10,0,0].getD k 0 < 3 * 1)) := by
  have hres : std_dev_pulsefinding [0,10,0,0] 1 1 1 5 5 3 = some (1, 2) := by
    norm_num [std_dev_pulsefinding, npArgmax, List.findIdx, List.findIdx.go]
  exact ⟨le_refl 1, hres,
    C4_end_index_first_below_or_sentinel [0,10,0,0] 1 1 1 5 5 3 1 2 (le_refl 1) hres⟩

/-- C9 (amended): with a valid window (`search_window ≤ trigger_sample` and
`trigger_sample + search_window ≤ len`) and a non-negative `std_dev`, every
pair `(st, en)` returned by `std_dev_pulsefinding` satisfies
`0 ≤ st < en ≤ len - 1`.  The degenerate no-signal case is however not
reported distinctly — see the counterexample — it also produces such an
ordered pair, with `st` equal to the window start. -/
theorem C9_returned_pair_is_ordered
    (wf : List ℚ) (std_dev : ℚ) (trigger_sample search_window frame : ℕ)
    (rising_thresh falling_thresh : ℚ) (st en : ℕ)
    (hstd : 0 ≤ std_dev) (hsw : search_window ≤ trigger_sample)
    (hwe : trigger_sample + search_window ≤ wf.length)
    (hres : std_dev_pulsefinding wf std_dev trigger_sample search_window frame
      rising_thresh falling_thresh = some (st, en)) :
    st < en ∧ en ≤ wf.length - 1 := by
  obtain ⟨h1, h2⟩ := pulsefinding_some_inv wf std_dev trigger_sample search_window frame
    rising_thresh falling_thresh st en hres
  rcases h2 with ⟨hlt, hgt, -, -⟩ | ⟨heq, -⟩ <;> omega

/-- Witness for C9 on the concrete profile `[0,9,4,0,0]`: the detector
returns the pair `(1, 3)`, which is strictly ordered and bounded by the
last index 4. -/
theorem C9_witness :
    (0:ℚ) ≤ 1 ∧ 1 ≤ 1 ∧ 1 + 1 ≤ [(0:ℚ),9,4,0,0].length ∧
    std_dev_pulsefinding [0,9,4,0,0] 1 1 1 5 5 3 = some (1, 3) ∧
    1 < 3 ∧ 3 ≤ [(0:ℚ),9,4,0,0].length - 1 := by
  have hres : std_dev_pulsefinding [0,9,4,0,0] 1 1 1 5 5 3 = some (1, 3) := by
    norm_num [std_dev_pulsefinding, npArgmax, List.findIdx, List.findIdx.go]
  refine ⟨by norm_num, le_refl 1, by norm_num, hres, ?_, ?_⟩
  · exact (C9_returned_pair_is_ordered [0,9,4,0,0] 1 1 1 5 5 3 1 3
      (by norm_num) (le_refl 1) (by norm_num) hres).1
  · exact (C9_returned_pair_is_ordered [0,9,4,0,0] 1 1 1 5 5 3 1 3
      (by norm_num) (le_refl 1) (by norm_num) hres).2

theorem getD_mem_general {α : Type} (l : List α) (d : α) (i : ℕ) (h : i < l.length) :
    l.getD i d ∈ l := by
  rw [List.getD_eq_getElem _ _ h]
  exact List.getElem_mem h

theorem cumsum_getD (row : List ℚ) (m : ℕ) (hm : m ≤ row.length) :
    (row.scanl (fun a b => a + b) 0).getD m 0 = ∑ i ∈ Finset.range m, row.getD i 0 := by
  rw [scanl_add_getD row 0 m hm, zero_add]

theorem sum_range_sub_sum_range (row : List ℚ) (m w : ℕ) :
    (∑ i ∈ Finset.range (m + w), row.getD i 0) - ∑ i ∈ Finset.range m, row.getD i 0 =
      ∑ i ∈ Finset.range w, row.getD (m + i) 0 := by
  have h1 : ∑ i ∈ Finset.range (m + w), row.getD i 0 =
      (∑ i ∈ Finset.range m, row.getD i 0) + ∑ i ∈ Finset.Ico m (m + w), row.getD i 0 := by
    rw [Finset.range_eq_Ico,
      ← Finset.sum_Ico_consecutive (fun i => row.getD i 0) (Nat.zero_le m) (Nat.le_add_right m w)]
  rw [h1, Finset.sum_Ico_eq_sum_range]
  simp

theorem rollRow_zero (row : List ℚ) : rollRow row 0 = row := by
  simp only [rollRow, List.replicate_zero, List.nil_append, List.append_nil]
  apply List.ext_getElem
  · simp [List.length_scanl]
  · intro n h1 h2
    have hn : n < (row.scanl (fun a b => a + b) 0).length - (2 * 0 + 1) := by
      simpa using h1
    rw [List.getElem_map, List.getElem_range]
    have e1 : (row.scanl (fun a b => a + b) 0).getD (n + (2 * 0 + 1)) 0 =
        ∑ i ∈ Finset.range (n + 1), row.getD i 0 := by
      rw [cumsum_getD row _ (by simp at hn; omega)]
    have e2 : (row.scanl (fun a b => a + b) 0).getD n 0 =
        ∑ i ∈ Finset.range n, row.getD i 0 :=
      cumsum_getD row n (by simp at hn; omega)
    rw [e1, e2, Finset.sum_range_succ]
    rw [List.getD_eq_getElem _ _ h2]
    push_cast
    ring

theorem rollRow_spec (row : List ℚ) (half_window : ℕ)
    (hw : 2 * half_window + 1 ≤ row.length) :
    (rollRow row half_window).length = row.length ∧
    (∀ j, half_window ≤ j → j + half_window < row.length →
      (rollRow row half_window).getD j 0 =
        (∑ i ∈ Finset.range (2 * half_window + 1), row.getD (j - half_window + i) 0) /
          (2 * half_window + 1 : ℚ)) ∧
    (∀ j, j < half_window →
      (rollRow row half_window).getD j 0 =
        (∑ i ∈ Finset.range (2 * half_window + 1), row.getD i 0) /
          (2 * half_window + 1 : ℚ)) ∧
    (∀ j, row.length - half_window ≤ j → j < row.length →
      (rollRow row half_window).getD j 0 =
        (∑ i ∈ Finset.range (2 * half_window + 1),
          row.getD (row.length - (2 * half_window + 1) + i) 0) /
          (2 * half_window + 1 : ℚ)) := by
  set N := row.length with hN
  set w := 2 * half_window + 1 with hwdef
  simp only [rollRow]
  set cs := row.scanl (fun a b => a + b) 0 with hcs
  have hcsl : cs.length = N + 1 := List.length_scanl 0 row
  set A := (List.range (cs.length - w)).map
      (fun m => (cs.getD (m + w) 0 - cs.getD m 0) / (w : ℚ)) with hA
  have hAlen : A.length = N + 1 - w := by
    rw [hA, List.length_map, List.length_range, hcsl]
  have hAval : ∀ m, m < N + 1 - w →
      A.getD m 0 = (∑ i ∈ Finset.range w, row.getD (m + i) 0) / (w : ℚ) := by
    intro m hm
    rw [hA, getD_map_range _ _ _ (by omega)]
    rw [hcs, cumsum_getD row (m + w) (by omega), cumsum_getD row m (by omega),
      sum_range_sub_sum_range]
  set L := List.replicate half_window (A.getD 0 0) with hL
  set R := List.replicate half_window (A.getD (A.length - 1) 0) with hR
  have hLlen : L.length = half_window := List.length_replicate _ _
  have hRlen : R.length = half_window := List.length_replicate _ _
  have hlen : (L ++ A ++ R).length = N := by
    simp [hLlen, hAlen, hRlen]
    omega
  have hLA : (L ++ A).length = half_window + (N + 1 - w) := by
    simp [hLlen, hAlen]
  refine ⟨hlen, ?_, ?_, ?_⟩
  · intro j hj1 hj2
    rw [List.getD_append (L ++ A) R 0 j (by omega)]
    rw [List.getD_append_right L A 0 j (by omega)]
    rw [hLlen, hAval (j - half_window) (by omega)]
    rw [hwdef]
    push_cast
    ring
  · intro j hj
    rw [List.getD_append (L ++ A) R 0 j (by omega)]
    rw [List.getD_append L A 0 j (by omega)]
    rw [hL, List.getD_eq_getElem _ _ (by simpa using hj), List.getElem_replicate]
    rw [hAval 0 (by omega)]
    simp only [Nat.zero_add]
    rw [hwdef]
    push_cast
    ring
  · intro j hj1 hj2
    rw [List.getD_append_right (L ++ A) R 0 j (by omega)]
    rw [hR, List.getD_eq_getElem _ _ (by simp [hRlen, hLA]; omega), List.getElem_replicate]
    rw [hAlen]
    rw [hAval (N + 1 - w - 1) (by omega)]
    have hidx : N + 1 - w - 1 = N - w := by omega
    rw [hidx, hwdef]
    push_cast
    ring


/-- C8: `rolling_average` with `half_window = 0` returns the batch
unchanged; for any `half_window` with `2*half_window + 1 ≤ N` (the common
row length) the output has the same shape, interior positions carry the mean
of the `2*half_window + 1` samples centred there, and positions within
`half_window` of either boundary carry the leftmost/rightmost fully-computed
window average (broadcast), not a shrinking-window or zero-padded value. -/
theorem C8_rolling_average_zero_and_edge_policy
    (x : List (List ℚ)) (half_window N : ℕ)
    (hN : 1 ≤ N) (hrows : ∀ row ∈ x, row.length = N)
    (hw : 2 * half_window + 1 ≤ N) :
    rolling_average x 0 = x ∧
    (rolling_average x half_window).length = x.length ∧
    ∀ k, k < x.length →
      ((rolling_average x half_window).getD k []).length = N ∧
      (∀ j, half_window ≤ j → j + half_window < N →
        ((rolling_average x half_window).getD k []).getD j 0 =
          (∑ i ∈ Finset.range (2 * half_window + 1),
            (x.getD k []).getD (j - half_window + i) 0) / (2 * half_window + 1 : ℚ)) ∧
      (∀ j, j < half_window →
        ((rolling_average x half_window).getD k []).getD j 0 =
          (∑ i ∈ Finset.range (2 * half_window + 1), (x.getD k []).getD i 0) /
            (2 * half_window + 1 : ℚ)) ∧
      (∀ j, N - half_window ≤ j → j < N →
        ((rolling_average x half_window).getD k []).getD j 0 =
          (∑ i ∈ Finset.range (2 * half_window + 1),
            (x.getD k []).getD (N - (2 * half_window + 1) + i) 0) /
            (2 * half_window + 1 : ℚ)) := by
  refine ⟨?_, ?_, ?_⟩
  · simp only [rolling_average]
    have hid : ∀ a ∈ x, rollRow a 0 = id a := fun a _ => rollRow_zero a
    rw [List.map_congr_left hid, List.map_id]
  · simp [rolling_average]
  · intro k hk
    have hkg : (rolling_average x half_window).getD k [] =
        rollRow (x.getD k []) half_window := by
      rw [List.getD_eq_getElem _ _ (by simpa [rolling_average] using hk)]
      simp only [rolling_average]
      rw [List.getElem_map, List.getD_eq_getElem _ _ hk]
    have hrl : (x.getD k []).length = N := hrows _ (getD_mem_general x [] k hk)
    obtain ⟨hlen, hint, hleft, hright⟩ :=
      rollRow_spec (x.getD k []) half_window (by omega)
    rw [hrl] at hlen hint hright
    rw [hkg]
    exact ⟨hlen, hint, hleft, hright⟩


/-- Witness for C8 on the batch `[[1,2,3]]` with `half_window = 1`. -/
theorem C8_witness :
    1 ≤ 3 ∧ (∀ row ∈ [[(1:ℚ),2,3]], row.length = 3) ∧ 2 * 1 + 1 ≤ 3 ∧
    (rolling_average [[(1:ℚ),2,3]] 0 = [[(1:ℚ),2,3]] ∧
     (rolling_average [[(1:ℚ),2,3]] 1).length = [[(1:ℚ),2,3]].length ∧
     ∀ k, k < [[(1:ℚ),2,3]].length →
       ((rolling_average [[(1:ℚ),2,3]] 1).getD k []).length = 3 ∧
       (∀ j, 1 ≤ j → j + 1 < 3 →
         ((rolling_average [[(1:ℚ),2,3]] 1).getD k []).getD j 0 =
           (∑ i ∈ Finset.range (2 * 1 + 1),
             ([[(1:ℚ),2,3]].getD k []).getD (j - 1 + i) 0) / (2 * 1 + 1 : ℚ)) ∧
       (∀ j, j < 1 →
         ((rolling_average [[(1:ℚ),2,3]] 1).getD k []).getD j 0 =
           (∑ i ∈ Finset.range (2 * 1 + 1), ([[(1:ℚ),2,3]].getD k []).getD i 0) /
             (2 * 1 + 1 : ℚ)) ∧
       (∀ j, 3 - 1 ≤ j → j < 3 →
         ((rolling_average [[(1:ℚ),2,3]] 1).getD k []).getD j 0 =
           (∑ i ∈ Finset.range (2 * 1 + 1),
             ([[(1:ℚ),2,3]].getD k []).getD (3 - (2 * 1 + 1) + i) 0) /
             (2 * 1 + 1 : ℚ))) := by
  refine ⟨by norm_num, ?_, by norm_num, ?_⟩
  · intro row hr
    simp only [List.mem_singleton] at hr
    subst hr
    rfl
  · exact C8_rolling_average_zero_and_edge_policy [[(1:ℚ),2,3]] 1 3 (by norm_num)
      (by intro row hr; simp only [List.mem_singleton] at hr; subst hr; rfl) (by norm_num)

/-- C6 (code_bug evaluation): with `start_sample = 2` and
`trigger_sample - pretr_excl_sampl = 1` the baseline window `[2, 1)` is
empty, yet `leading_baseline` performs no validation: it still returns a
numeric mean and std per row (numpy emits NaN with only a runtime warning;
the division-by-zero junk value stands in for it here), instead of failing
with an invalid-range error as the claim requires. -/
theorem C6_invalid_window_returns_values :
    (leading_baseline [[(1:ℚ),2,3]] 1 2 0).1.length = 1 ∧
    (leading_baseline [[(1:ℚ),2,3]] 1 2 0).2.length = 1 := by
  constructor <;> simp [leading_baseline]

/-- C5: with a valid non-empty baseline window
`[start_sample, trigger_sample - pretr_excl_sampl)` contained in the profile,
`leading_baseline` (with `linear=False`) returns one value per batch row,
where the mean entry is the sample mean and the std entry the population
standard deviation of that row restricted to the window. -/
theorem C5_leading_baseline_mean_std
    (waveform : List (List ℚ)) (N trigger_sample start_sample pretr_excl_sampl : ℕ)
    (hrows : ∀ row ∈ waveform, row.length = N)
    (h1 : start_sample < trigger_sample - pretr_excl_sampl)
    (h2 : trigger_sample - pretr_excl_sampl ≤ N) :
    (leading_baseline waveform trigger_sample start_sample pretr_excl_sampl).1.length =
      waveform.length ∧
    (leading_baseline waveform trigger_sample start_sample pretr_excl_sampl).2.length =
      waveform.length ∧
    ∀ k, k < waveform.length →
      (leading_baseline waveform trigger_sample start_sample pretr_excl_sampl).1.getD k 0 =
        (∑ j ∈ Finset.Ico start_sample (trigger_sample - pretr_excl_sampl),
          (waveform.getD k []).getD j 0) /
          ((trigger_sample - pretr_excl_sampl - start_sample : ℕ) : ℚ) ∧
      (leading_baseline waveform trigger_sample start_sample pretr_excl_sampl).2.getD k 0 =
        Real.sqrt (((∑ j ∈ Finset.Ico start_sample (trigger_sample - pretr_excl_sampl),
          ((waveform.getD k []).getD j 0 -
            (∑ j2 ∈ Finset.Ico start_sample (trigger_sample - pretr_excl_sampl),
              (waveform.getD k []).getD j2 0) /
              ((trigger_sample - pretr_excl_sampl - start_sample : ℕ) : ℚ)) ^ 2) /
          ((trigger_sample - pretr_excl_sampl - start_sample : ℕ) : ℚ) : ℚ)) := by
  refine ⟨by simp [leading_baseline], by simp [leading_baseline], ?_⟩
  intro k hk
  have hrl : (waveform.getD k []).length = N := hrows _ (getD_mem_general waveform [] k hk)
  have hget1 : (leading_baseline waveform trigger_sample start_sample pretr_excl_sampl).1.getD k 0 =
      npMean (baseline_slice (waveform.getD k [])
        start_sample (trigger_sample - pretr_excl_sampl)) := by
    simp only [leading_baseline]
    rw [List.getD_eq_getElem _ _ (by simpa using hk), List.getElem_map,
      List.getD_eq_getElem _ _ hk]
  have hget2 : (leading_baseline waveform trigger_sample start_sample pretr_excl_sampl).2.getD k 0 =
      npStd (baseline_slice (waveform.getD k [])
        start_sample (trigger_sample - pretr_excl_sampl)) := by
    simp only [leading_baseline]
    rw [List.getD_eq_getElem _ _ (by simpa using hk), List.getElem_map,
      List.getD_eq_getElem _ _ hk]
  have hmap := baseline_slice_eq_map (waveform.getD k [])
    start_sample (trigger_sample - pretr_excl_sampl) (by omega)
  have hmean : npMean (baseline_slice (waveform.getD k [])
      start_sample (trigger_sample - pretr_excl_sampl)) =
      (∑ j ∈ Finset.Ico start_sample (trigger_sample - pretr_excl_sampl),
        (waveform.getD k []).getD j 0) /
        ((trigger_sample - pretr_excl_sampl - start_sample : ℕ) : ℚ) := by
    rw [npMean, hmap, sum_map_range, List.length_map, List.length_range,
      Finset.sum_Ico_eq_sum_range]
  refine ⟨hget1.trans hmean, ?_⟩
  rw [hget2, npStd, hmean, hmap, List.map_map, sum_map_range, List.length_map,
    List.length_range]
  simp only [Function.comp]
  congr 2
  rw [Finset.sum_Ico_eq_sum_range, Finset.sum_Ico_eq_sum_range]


/-- Witness for C5 on the batch `[[3,5,1,9]]` with window `[0, 2)`. -/
theorem C5_witness :
    (∀ row ∈ [[(3:ℚ),5,1,9]], row.length = 4) ∧ (0:ℕ) < 3 - 1 ∧ (3:ℕ) - 1 ≤ 4 ∧
    ((leading_baseline [[(3:ℚ),5,1,9]] 3 0 1).1.length = [[(3:ℚ),5,1,9]].length ∧
     (leading_baseline [[(3:ℚ),5,1,9]] 3 0 1).2.length = [[(3:ℚ),5,1,9]].length ∧
     ∀ k, k < [[(3:ℚ),5,1,9]].length →
       (leading_baseline [[(3:ℚ),5,1,9]] 3 0 1).1.getD k 0 =
         (∑ j ∈ Finset.Ico 0 (3 - 1), ([[(3:ℚ),5,1,9]].getD k []).getD j 0) /
           ((3 - 1 - 0 : ℕ) : ℚ) ∧
       (leading_baseline [[(3:ℚ),5,1,9]] 3 0 1).2.getD k 0 =
         Real.sqrt (((∑ j ∈ Finset.Ico 0 (3 - 1),
           (([[(3:ℚ),5,1,9]].getD k []).getD j 0 -
             (∑ j2 ∈ Finset.Ico 0 (3 - 1), ([[(3:ℚ),5,1,9]].getD k []).getD j2 0) /
               ((3 - 1 - 0 : ℕ) : ℚ)) ^ 2) / ((3 - 1 - 0 : ℕ) : ℚ) : ℚ))) := by
  have hrows : ∀ row ∈ [[(3:ℚ),5,1,9]], row.length = 4 := by
    intro row hr
    simp only [List.mem_singleton] at hr
    subst hr
    rfl
  exact ⟨hrows, by norm_num, by norm_num,
    C5_leading_baseline_mean_std [[(3:ℚ),5,1,9]] 4 3 0 1 hrows (by norm_num) (by norm_num)⟩

theorem sum_range_id_q (n : ℕ) :
    ∑ k ∈ Finset.range n, (k : ℚ) = n * (n - 1) / 2 := by
  induction n with
  | zero => simp
  | succ m ih =>
      rw [Finset.sum_range_succ, ih]
      push_cast
      ring

theorem sum_range_sq_q (n : ℕ) :
    ∑ k ∈ Finset.range n, (k : ℚ) ^ 2 = n * (n - 1) * (2 * n - 1) / 6 := by
  induction n with
  | zero => simp
  | succ m ih =>
      rw [Finset.sum_range_succ, ih]
      push_cast
      ring

theorem sum_range_shift_id (s n : ℕ) :
    ∑ k ∈ Finset.range n, ((s + k : ℕ) : ℚ) =
      n * s + n * (n - 1) / 2 := by
  have h : ∀ k ∈ Finset.range n, ((s + k : ℕ) : ℚ) = (s : ℚ) + k := by
    intro k _
    push_cast
    ring
  rw [Finset.sum_congr rfl h, Finset.sum_add_distrib, Finset.sum_const,
    Finset.card_range, nsmul_eq_mul, sum_range_id_q]

theorem sum_range_shift_sq (s n : ℕ) :
    ∑ k ∈ Finset.range n, ((s + k : ℕ) : ℚ) ^ 2 =
      n * s ^ 2 + 2 * s * (n * (n - 1) / 2) + n * (n - 1) * (2 * n - 1) / 6 := by
  have h : ∀ k ∈ Finset.range n, ((s + k : ℕ) : ℚ) ^ 2 =
      (s : ℚ) ^ 2 + 2 * s * k + (k : ℚ) ^ 2 := by
    intro k _
    push_cast
    ring
  rw [Finset.sum_congr rfl h, Finset.sum_add_distrib, Finset.sum_add_distrib,
    Finset.sum_const, Finset.card_range, nsmul_eq_mul, ← Finset.mul_sum,
    sum_range_id_q, sum_range_sq_q]

theorem lsq_denom_pos (s n : ℕ) (hn : 2 ≤ n) :
    0 < (n : ℚ) * (∑ k ∈ Finset.range n, ((s + k : ℕ) : ℚ) ^ 2) -
      (∑ k ∈ Finset.range n, ((s + k : ℕ) : ℚ)) ^ 2 := by
  rw [sum_range_shift_id, sum_range_shift_sq]
  have hcast : (2 : ℚ) ≤ (n : ℚ) := by exact_mod_cast hn
  have hkey : (n : ℚ) * ((n : ℚ) * s ^ 2 + 2 * s * ((n : ℚ) * ((n : ℚ) - 1) / 2) +
        (n : ℚ) * ((n : ℚ) - 1) * (2 * (n : ℚ) - 1) / 6) -
      ((n : ℚ) * s + (n : ℚ) * ((n : ℚ) - 1) / 2) ^ 2 =
      (n : ℚ) ^ 2 * ((n : ℚ) - 1) * ((n : ℚ) + 1) / 12 := by
    ring
  rw [hkey]
  apply div_pos
  · apply mul_pos
    · apply mul_pos
      · positivity
      · linarith
    · linarith
  · norm_num


/-- The modelled closed-form fit satisfies both normal equations over the
sample positions `s, s+1, ..., s+n-1` and is a global least-squares
minimiser among all straight lines. -/
theorem curve_fit_lin_spec (s n : ℕ) (hn : 2 ≤ n) (f : ℕ → ℚ) (slope intercept : ℚ)
    (hfit : curve_fit_lin ((List.range n).map (fun k => ((s + k : ℕ) : ℚ)))
      ((List.range n).map (fun k => f (s + k))) = (slope, intercept)) :
    (∑ k ∈ Finset.range n,
      (f (s + k) - (slope * ((s + k : ℕ) : ℚ) + intercept)) = 0) ∧
    (∑ k ∈ Finset.range n,
      ((s + k : ℕ) : ℚ) * (f (s + k) - (slope * ((s + k : ℕ) : ℚ) + intercept)) = 0) ∧
    (∀ a b : ℚ,
      ∑ k ∈ Finset.range n, (f (s + k) - (slope * ((s + k : ℕ) : ℚ) + intercept)) ^ 2 ≤
      ∑ k ∈ Finset.range n, (f (s + k) - (a * ((s + k : ℕ) : ℚ) + b)) ^ 2) := by
  simp only [curve_fit_lin, List.length_map, List.length_range, Prod.mk.injEq] at hfit
  rw [sum_map_range, sum_map_range, List.map_map] at hfit
  rw [zipWith_map_same (fun a b => a * b) (fun k => ((s + k : ℕ) : ℚ)) (fun k => f (s + k))
    (List.range n)] at hfit
  rw [sum_map_range] at hfit
  have hsq : ((List.range n).map
      ((fun v => v ^ 2) ∘ fun k => ((s + k : ℕ) : ℚ))).sum =
      ∑ k ∈ Finset.range n, ((s + k : ℕ) : ℚ) ^ 2 := sum_map_range _ n
  rw [hsq] at hfit
  obtain ⟨hsl, hin⟩ := hfit
  set Sx := ∑ k ∈ Finset.range n, ((s + k : ℕ) : ℚ) with hSx
  set Sy := ∑ k ∈ Finset.range n, f (s + k) with hSy
  set Sxx := ∑ k ∈ Finset.range n, ((s + k : ℕ) : ℚ) ^ 2 with hSxx
  set Sxy := ∑ k ∈ Finset.range n, ((s + k : ℕ) : ℚ) * f (s + k) with hSxy
  have hd : 0 < (n : ℚ) * Sxx - Sx ^ 2 := lsq_denom_pos s n hn
  have hd0 : (n : ℚ) * Sxx - Sx ^ 2 ≠ 0 := ne_of_gt hd
  have hn0 : (n : ℚ) ≠ 0 := by
    have : (0 : ℚ) < n := by exact_mod_cast Nat.lt_of_lt_of_le (by norm_num) hn
    exact ne_of_gt this
  have hslope : slope * ((n : ℚ) * Sxx - Sx ^ 2) = (n : ℚ) * Sxy - Sx * Sy := by
    rw [← hsl]
    field_simp
  have hinter : intercept * (n : ℚ) = Sy - slope * Sx := by
    rw [← hin]
    field_simp
    linear_combination ((n : ℚ) * Sx) * hslope
  have e1 : ∑ k ∈ Finset.range n,
      (f (s + k) - (slope * ((s + k : ℕ) : ℚ) + intercept)) =
      Sy - slope * Sx - n * intercept := by
    rw [Finset.sum_sub_distrib, Finset.sum_add_distrib, Finset.sum_const,
      Finset.card_range, nsmul_eq_mul, ← Finset.mul_sum, ← hSy, ← hSx]
    ring
  have e2 : ∑ k ∈ Finset.range n,
      ((s + k : ℕ) : ℚ) * (f (s + k) - (slope * ((s + k : ℕ) : ℚ) + intercept)) =
      Sxy - slope * Sxx - intercept * Sx := by
    have hterm : ∀ k ∈ Finset.range n,
        ((s + k : ℕ) : ℚ) * (f (s + k) - (slope * ((s + k : ℕ) : ℚ) + intercept)) =
        ((s + k : ℕ) : ℚ) * f (s + k) - slope * ((s + k : ℕ) : ℚ) ^ 2 -
          intercept * ((s + k : ℕ) : ℚ) := by
      intro k _
      ring
    rw [Finset.sum_congr rfl hterm, Finset.sum_sub_distrib, Finset.sum_sub_distrib,
      ← Finset.mul_sum, ← Finset.mul_sum, ← hSxy, ← hSxx, ← hSx]
  have hE1 : ∑ k ∈ Finset.range n,
      (f (s + k) - (slope * ((s + k : ℕ) : ℚ) + intercept)) = 0 := by
    rw [e1]
    have : (n : ℚ) * intercept = Sy - slope * Sx := by
      rw [mul_comm]
      exact hinter
    rw [this]
    ring
  have hE2 : ∑ k ∈ Finset.range n,
      ((s + k : ℕ) : ℚ) * (f (s + k) - (slope * ((s + k : ℕ) : ℚ) + intercept)) = 0 := by
    rw [e2]
    have hni : intercept * Sx * (n : ℚ) = (Sy - slope * Sx) * Sx := by
      rw [mul_right_comm, hinter]
    have goal_mul : (Sxy - slope * Sxx - intercept * Sx) * (n : ℚ) = 0 := by
      have expand : (Sxy - slope * Sxx - intercept * Sx) * (n : ℚ) =
          (n : ℚ) * Sxy - slope * ((n : ℚ) * Sxx) - intercept * Sx * (n : ℚ) := by
        ring
      rw [expand, hni]
      have hslope2 : slope * ((n : ℚ) * Sxx) =
          slope * Sx ^ 2 + ((n : ℚ) * Sxy - Sx * Sy) := by
        have : slope * ((n : ℚ) * Sxx) = slope * ((n : ℚ) * Sxx - Sx ^ 2) + slope * Sx ^ 2 := by
          ring
        rw [this, hslope]
        ring
      rw [hslope2]
      ring
    exact (mul_eq_zero.mp goal_mul).resolve_right hn0
  refine ⟨hE1, hE2, ?_⟩
  intro a b
  have expand : ∀ k ∈ Finset.range n,
      (f (s + k) - (a * ((s + k : ℕ) : ℚ) + b)) ^ 2 =
      (f (s + k) - (slope * ((s + k : ℕ) : ℚ) + intercept)) ^ 2 +
        (2 * (slope - a) * (((s + k : ℕ) : ℚ) *
          (f (s + k) - (slope * ((s + k : ℕ) : ℚ) + intercept))) +
         2 * (intercept - b) * (f (s + k) - (slope * ((s + k : ℕ) : ℚ) + intercept)) +
         ((slope - a) * ((s + k : ℕ) : ℚ) + (intercept - b)) ^ 2) := by
    intro k _
    ring
  rw [Finset.sum_congr rfl expand, Finset.sum_add_distrib, Finset.sum_add_distrib,
    Finset.sum_add_distrib, ← Finset.mul_sum, ← Finset.mul_sum, hE1, hE2]
  simp only [mul_zero, add_zero, zero_add]
  have hnonneg : 0 ≤ ∑ k ∈ Finset.range n,
      ((slope - a) * ((s + k : ℕ) : ℚ) + (intercept - b)) ^ 2 :=
    Finset.sum_nonneg (fun k _ => sq_nonneg _)
  linarith


/-- C7: with a valid baseline window holding at least 2 (automatically
distinct) sample positions, `leading_baseline` in linear mode returns, per
row, a per-sample baseline array of full profile length that is a straight
line `slope * j + intercept` minimising the squared error over the baseline
window (least squares), together with the population standard deviation of
the residual (profile minus fitted line) computed within the window only. -/
theorem C7_linear_baseline_fit
    (waveform : List (List ℚ)) (N trigger_sample start_sample pretr_excl_sampl : ℕ)
    (hrows : ∀ row ∈ waveform, row.length = N)
    (h2 : start_sample + 2 ≤ trigger_sample - pretr_excl_sampl)
    (hle : trigger_sample - pretr_excl_sampl ≤ N) :
    (leading_baseline_linear waveform trigger_sample start_sample pretr_excl_sampl).1.length =
      waveform.length ∧
    (leading_baseline_linear waveform trigger_sample start_sample pretr_excl_sampl).2.length =
      waveform.length ∧
    ∀ k, k < waveform.length →
      ∃ slope intercept : ℚ,
        ((leading_baseline_linear waveform trigger_sample start_sample
            pretr_excl_sampl).1.getD k []).length = N ∧
        (∀ j, j < N →
          ((leading_baseline_linear waveform trigger_sample start_sample
              pretr_excl_sampl).1.getD k []).getD j 0 = slope * (j : ℚ) + intercept) ∧
        (∀ a b : ℚ,
          ∑ j ∈ Finset.Ico start_sample (trigger_sample - pretr_excl_sampl),
            ((waveform.getD k []).getD j 0 - (slope * (j : ℚ) + intercept)) ^ 2 ≤
          ∑ j ∈ Finset.Ico start_sample (trigger_sample - pretr_excl_sampl),
            ((waveform.getD k []).getD j 0 - (a * (j : ℚ) + b)) ^ 2) ∧
        (leading_baseline_linear waveform trigger_sample start_sample
            pretr_excl_sampl).2.getD k 0 =
          Real.sqrt (((∑ j ∈ Finset.Ico start_sample (trigger_sample - pretr_excl_sampl),
            ((waveform.getD k []).getD j 0 - (slope * (j : ℚ) + intercept)) ^ 2) /
            ((trigger_sample - pretr_excl_sampl - start_sample : ℕ) : ℚ) : ℚ)) := by
  refine ⟨by simp [leading_baseline_linear], by simp [leading_baseline_linear], ?_⟩
  intro k hk
  have hrl : (waveform.getD k []).length = N := hrows _ (getD_mem_general waveform [] k hk)
  have hys := baseline_slice_eq_map (waveform.getD k [])
    start_sample (trigger_sample - pretr_excl_sampl) (by omega)
  have hfit : curve_fit_lin
      ((List.range (trigger_sample - pretr_excl_sampl - start_sample)).map
        (fun i => ((start_sample + i : ℕ) : ℚ)))
      ((List.range (trigger_sample - pretr_excl_sampl - start_sample)).map
        (fun i => (waveform.getD k []).getD (start_sample + i) 0)) =
      ((curve_fit_lin (np_arange start_sample (trigger_sample - pretr_excl_sampl))
          (baseline_slice (waveform.getD k []) start_sample
            (trigger_sample - pretr_excl_sampl))).1,
       (curve_fit_lin (np_arange start_sample (trigger_sample - pretr_excl_sampl))
          (baseline_slice (waveform.getD k []) start_sample
            (trigger_sample - pretr_excl_sampl))).2) := by
    rw [← hys]
    exact Prod.mk.eta.symm
  obtain ⟨hE1, hE2, hopt⟩ := curve_fit_lin_spec start_sample
    (trigger_sample - pretr_excl_sampl - start_sample) (by omega)
    (fun j => (waveform.getD k []).getD j 0) _ _ hfit
  have hB : (leading_baseline_linear waveform trigger_sample start_sample
        pretr_excl_sampl).1.getD k [] =
      (List.range (waveform.getD k []).length).map
        (fun x : ℕ => lin_fit (x : ℚ)
          (curve_fit_lin (np_arange start_sample (trigger_sample - pretr_excl_sampl))
            (baseline_slice (waveform.getD k []) start_sample
              (trigger_sample - pretr_excl_sampl))).1
          (curve_fit_lin (np_arange start_sample (trigger_sample - pretr_excl_sampl))
            (baseline_slice (waveform.getD k []) start_sample
              (trigger_sample - pretr_excl_sampl))).2) := by
    simp only [leading_baseline_linear]
    rw [List.getD_eq_getElem _ _ (by simpa using hk), List.getElem_map,
      List.getD_eq_getElem _ _ hk]
  have hS : (leading_baseline_linear waveform trigger_sample start_sample
        pretr_excl_sampl).2.getD k 0 =
      npStd (List.zipWith (fun a b => a - b)
        (baseline_slice (waveform.getD k []) start_sample
          (trigger_sample - pretr_excl_sampl))
        (baseline_slice ((List.range (waveform.getD k []).length).map
          (fun x : ℕ => lin_fit (x : ℚ)
            (curve_fit_lin (np_arange start_sample (trigger_sample - pretr_excl_sampl))
              (baseline_slice (waveform.getD k []) start_sample
                (trigger_sample - pretr_excl_sampl))).1
            (curve_fit_lin (np_arange start_sample (trigger_sample - pretr_excl_sampl))
              (baseline_slice (waveform.getD k []) start_sample
                (trigger_sample - pretr_excl_sampl))).2))
          start_sample (trigger_sample - pretr_excl_sampl))) := by
    simp only [leading_baseline_linear]
    rw [List.getD_eq_getElem _ _ (by simpa using hk), List.getElem_map,
      List.getD_eq_getElem _ _ hk]
  rw [hrl] at hB hS
  refine ⟨(curve_fit_lin (np_arange start_sample (trigger_sample - pretr_excl_sampl))
      (baseline_slice (waveform.getD k []) start_sample
        (trigger_sample - pretr_excl_sampl))).1,
    (curve_fit_lin (np_arange start_sample (trigger_sample - pretr_excl_sampl))
      (baseline_slice (waveform.getD k []) start_sample
        (trigger_sample - pretr_excl_sampl))).2, ?_, ?_, ?_, ?_⟩
  · rw [hB, List.length_map, List.length_range]
  · intro j hj
    rw [hB, getD_map_range _ N j hj]
    rw [lin_fit]
  · intro a b
    rw [Finset.sum_Ico_eq_sum_range, Finset.sum_Ico_eq_sum_range]
    exact hopt a b
  · have hBslice : baseline_slice ((List.range N).map
        (fun x : ℕ => lin_fit (x : ℚ)
          (curve_fit_lin (np_arange start_sample (trigger_sample - pretr_excl_sampl))
            (baseline_slice (waveform.getD k []) start_sample
              (trigger_sample - pretr_excl_sampl))).1
          (curve_fit_lin (np_arange start_sample (trigger_sample - pretr_excl_sampl))
            (baseline_slice (waveform.getD k []) start_sample
              (trigger_sample - pretr_excl_sampl))).2))
        start_sample (trigger_sample - pretr_excl_sampl) =
        (List.range (trigger_sample - pretr_excl_sampl - start_sample)).map
          (fun i =>
            (curve_fit_lin (np_arange start_sample (trigger_sample - pretr_excl_sampl))
              (baseline_slice (waveform.getD k []) start_sample
                (trigger_sample - pretr_excl_sampl))).1 * ((start_sample + i : ℕ) : ℚ) +
            (curve_fit_lin (np_arange start_sample (trigger_sample - pretr_excl_sampl))
              (baseline_slice (waveform.getD k []) start_sample
                (trigger_sample - pretr_excl_sampl))).2) := by
      rw [baseline_slice_eq_map _ _ _ (by rw [List.length_map, List.length_range]; omega)]
      apply List.map_congr_left
      intro i hi
      simp only [List.mem_range] at hi
      rw [getD_map_range _ N (start_sample + i) (by omega)]
      rw [lin_fit]
  
    have hres : List.zipWith (fun a b => a - b)
        (baseline_slice (waveform.getD k []) start_sample
          (trigger_sample - pretr_excl_sampl))
        ((List.range (trigger_sample - pretr_excl_sampl - start_sample)).map
          (fun i =>
            (curve_fit_lin (np_arange start_sample (trigger_sample - pretr_excl_sampl))
              (baseline_slice (waveform.getD k []) start_sample
                (trigger_sample - pretr_excl_sampl))).1 * ((start_sample + i : ℕ) : ℚ) +
            (curve_fit_lin (np_arange start_sample (trigger_sample - pretr_excl_sampl))
              (baseline_slice (waveform.getD k []) start_sample
                (trigger_sample - pretr_excl_sampl))).2)) =
        (List.range (trigger_sample - pretr_excl_sampl - start_sample)).map
          (fun i => (waveform.getD k []).getD (start_sample + i) 0 -
            ((curve_fit_lin (np_arange start_sample (trigger_sample - pretr_excl_sampl))
              (baseline_slice (waveform.getD k []) start_sample
                (trigger_sample - pretr_excl_sampl))).1 * ((start_sample + i : ℕ) : ℚ) +
            (curve_fit_lin (np_arange start_sample (trigger_sample - pretr_excl_sampl))
              (baseline_slice (waveform.getD k []) start_sample
                (trigger_sample - pretr_excl_sampl))).2)) := by
      rw [hys, zipWith_map_same]
    rw [hS, hBslice, hres, npStd]
    have hmean : npMean ((List.range (trigger_sample - pretr_excl_sampl - start_sample)).map
        (fun i => (waveform.getD k []).getD (start_sample + i) 0 -
          ((curve_fit_lin (np_arange start_sample (trigger_sample - pretr_excl_sampl))
            (baseline_slice (waveform.getD k []) start_sample
              (trigger_sample - pretr_excl_sampl))).1 * ((start_sample + i : ℕ) : ℚ) +
          (curve_fit_lin (np_arange start_sample (trigger_sample - pretr_excl_sampl))
            (baseline_slice (waveform.getD k []) start_sample
              (trigger_sample - pretr_excl_sampl))).2))) = 0 := by
      rw [npMean, sum_map_range, hE1, zero_div]
    rw [hmean, List.map_map, sum_map_range, List.length_map, List.length_range]
    rw [Finset.sum_Ico_eq_sum_range]
    congr 3
    · apply Finset.sum_congr rfl
      intro i _
      simp only [Function.comp]
      ring


/-- Witness for C7 on the batch `[[1,3,7,7]]` with window `[0, 2)`. -/
theorem C7_witness :
    (∀ row ∈ [[(1:ℚ),3,7,7]], row.length = 4) ∧ 0 + 2 ≤ 2 - 0 ∧ (2:ℕ) - 0 ≤ 4 ∧
    ((leading_baseline_linear [[(1:ℚ),3,7,7]] 2 0 0).1.length = [[(1:ℚ),3,7,7]].length ∧
     (leading_baseline_linear [[(1:ℚ),3,7,7]] 2 0 0).2.length = [[(1:ℚ),3,7,7]].length ∧
     ∀ k, k < [[(1:ℚ),3,7,7]].length →
       ∃ slope intercept : ℚ,
         ((leading_baseline_linear [[(1:ℚ),3,7,7]] 2 0 0).1.getD k []).length = 4 ∧
         (∀ j, j < 4 →
           ((leading_baseline_linear [[(1:ℚ),3,7,7]] 2 0 0).1.getD k []).getD j 0 =
             slope * (j : ℚ) + intercept) ∧
         (∀ a b : ℚ,
           ∑ j ∈ Finset.Ico 0 (2 - 0),
             (([[(1:ℚ),3,7,7]].getD k []).getD j 0 - (slope * (j : ℚ) + intercept)) ^ 2 ≤
           ∑ j ∈ Finset.Ico 0 (2 - 0),
             (([[(1:ℚ),3,7,7]].getD k []).getD j 0 - (a * (j : ℚ) + b)) ^ 2) ∧
         (leading_baseline_linear [[(1:ℚ),3,7,7]] 2 0 0).2.getD k 0 =
           Real.sqrt (((∑ j ∈ Finset.Ico 0 (2 - 0),
             (([[(1:ℚ),3,7,7]].getD k []).getD j 0 - (slope * (j : ℚ) + intercept)) ^ 2) /
             ((2 - 0 - 0 : ℕ) : ℚ) : ℚ))) := by
  have hrows : ∀ row ∈ [[(1:ℚ),3,7,7]], row.length = 4 := by
    intro row hr
    simp only [List.mem_singleton] at hr
    subst hr
    rfl
  exact ⟨hrows, by norm_num, by norm_num,
    C7_linear_baseline_fit [[(1:ℚ),3,7,7]] 4 2 0 0 hrows (by norm_num) (by norm_num)⟩

end PhotoProcessing
